import Mathlib

/-!
Shallow embedding of the parser in `src/parser.rs` of interpreter-rs.

The parser consumes tokens from a lexer through `next_token`, keeps a
two-token lookahead window (`cur`, `peek`), accumulates diagnostic strings
in `errors`, and produces a `Program` (list of statements).

The token and AST types live in `token.rs` / `ast.rs`, which are external
collaborators of the parser; they are modelled here from the spec's closed
data model (section 3).  The lexer is modelled as the remaining finite list
of tokens: once exhausted it yields `Token.Eof` on every further pull,
exactly the contract in section 6 of the spec.

All recursion and loops of the Rust code are embedded with an explicit
`fuel` parameter; `Res.outOfFuel` signals that the fuel ran out, so a
computation whose result is `Res.outOfFuel` for every fuel is one on which
the Rust code does not terminate.  `Res.panicked` models a Rust `panic!`.
-/

/-- Modelled from the spec: the closed token union of `token.rs` (spec §3). -/
inductive Token where
  | Ident (s : String)
  | Int (s : String)
  | Let
  | Return
  | True
  | False
  | Assign
  | Bang
  | Minus
  | Plus
  | Slash
  | Asterisk
  | Eq
  | NotEq
  | Lt
  | Gt
  | LParen
  | RParen
  | Semicolon
  | Eof
deriving DecidableEq, Repr

/-- Rust's `{:#?}` (alternate Debug) rendering of a token, as used in the
parser's diagnostic messages. -/
def Token.fmt : Token → String
  | .Ident s => "Ident(\n    \"" ++ s ++ "\",\n)"
  | .Int s => "Int(\n    \"" ++ s ++ "\",\n)"
  | .Let => "Let"
  | .Return => "Return"
  | .True => "True"
  | .False => "False"
  | .Assign => "Assign"
  | .Bang => "Bang"
  | .Minus => "Minus"
  | .Plus => "Plus"
  | .Slash => "Slash"
  | .Asterisk => "Asterisk"
  | .Eq => "Eq"
  | .NotEq => "NotEq"
  | .Lt => "Lt"
  | .Gt => "Gt"
  | .LParen => "LParen"
  | .RParen => "RParen"
  | .Semicolon => "Semicolon"
  | .Eof => "Eof"

/-- Modelled from the spec: prefix operators of `ast.rs` (spec §3). -/
inductive PrefixOperator where
  | Minus
  | Bang
deriving DecidableEq, Repr

/-- Modelled from the spec: infix operators of `ast.rs` (spec §3). -/
inductive InfixOperator where
  | Plus
  | Minus
  | Asterisk
  | Slash
  | Eq
  | NotEq
  | Lt
  | Gt
deriving DecidableEq, Repr

/-- Modelled from the spec: `Identifier` node of `ast.rs`. -/
structure Identifier where
  tok : Token
  value : String
deriving DecidableEq, Repr

/-- Modelled from the spec: the `Expression` union of `ast.rs`; recursive
variants own their children (spec §3). -/
inductive Expression where
  | Identifier (tok : Token) (value : String)
  | Integer (tok : Token) (value : Int)
  | Boolean (tok : Token) (value : Bool)
  | PrefixExpression (tok : Token) (operator : PrefixOperator) (right : Expression)
  | InfixExpression (tok : Token) (left : Expression) (operator : InfixOperator)
      (right : Expression)
deriving DecidableEq, Repr

/-- Modelled from the spec: `LetStatement` retains only the bound identifier. -/
structure LetStatement where
  tok : Token
  name : Identifier
deriving DecidableEq, Repr

/-- Modelled from the spec: `ReturnStatement` retains no payload. -/
structure ReturnStatement where
  tok : Token
deriving DecidableEq, Repr

/-- Modelled from the spec: `ExpressionStatement` wraps one expression. -/
structure ExpressionStatement where
  tok : Token
  expression : Expression
deriving DecidableEq, Repr

/-- Modelled from the spec: the `Statement` union of `ast.rs`. -/
inductive Statement where
  | LetStatement (s : LetStatement)
  | ReturnStatement (s : ReturnStatement)
  | ExpressionStatement (s : ExpressionStatement)
deriving DecidableEq, Repr

/-- Modelled from the spec: a `Program` is the ordered statement sequence. -/
structure Program where
  statements : List Statement
deriving DecidableEq, Repr

/-- Modelled from the spec: Rust's `str::parse::<i64>`: an optional sign
followed by one or more ASCII digits, value within the signed 64-bit range. -/
def parseDigitsAux : List Char → Nat → Option Nat
  | [], acc => some acc
  | c :: cs, acc =>
    if c.isDigit then parseDigitsAux cs (acc * 10 + (c.toNat - 48)) else none

/-- Modelled from the spec: `str::parse::<i64>` (numeric conversion of the
integer token text, spec §3 and §4.3 step 1). -/
def parseI64 (s : String) : Option Int :=
  match s.data with
  | [] => none
  | c :: cs =>
    let signDigits : Bool × List Char :=
      if c = '-' then (true, cs)
      else if c = '+' then (false, cs)
      else (false, c :: cs)
    match signDigits.2 with
    | [] => none
    | d :: ds =>
      match parseDigitsAux (d :: ds) 0 with
      | none => none
      | some n =>
        let v : Int := if signDigits.1 then -(n : Int) else (n : Int)
        if -(2 ^ 63) ≤ v ∧ v ≤ 2 ^ 63 - 1 then some v else none

/-- The parser state of `src/parser.rs`: the lexer (modelled as its remaining
token list), the two-token lookahead window and the diagnostics list. -/
structure Parser where
  l : List Token
  cur : Token
  peek : Token
  errors : List String
deriving DecidableEq, Repr

/-- One pull on the lexer: head of the remaining list, `Token.Eof` forever
once exhausted (spec §6 lexer contract). -/
def lexNext : List Token → Token × List Token
  | [] => (Token.Eof, [])
  | t :: ts => (t, ts)

/-- `Parser::new`: pulls two tokens to fill the lookahead window. -/
def Parser.new (toks : List Token) : Parser :=
  let c := lexNext toks
  let pk := lexNext c.2
  { l := pk.2, cur := c.1, peek := pk.1, errors := [] }

/-- `Parser::next_token`: slide the window, pulling one token from the lexer. -/
def Parser.next_token (p : Parser) : Parser :=
  let t := lexNext p.l
  { l := t.2, cur := p.peek, peek := t.1, errors := p.errors }

/-- `Parser::cur_token_is`. -/
def Parser.cur_token_is (p : Parser) (tok : Token) : Bool :=
  decide (p.cur = tok)

/-- `Parser::peek_token_is`. -/
def Parser.peek_token_is (p : Parser) (tok : Token) : Bool :=
  decide (p.peek = tok)

/-- `Parser::peek_error`: append the structural-mismatch diagnostic. -/
def Parser.peek_error (p : Parser) (tok : Token) : Parser :=
  { p with errors := p.errors ++
      ["expected next token to be " ++ tok.fmt ++ ", got " ++ p.peek.fmt ++ " instead"] }

/-- `Parser::expect_peek`: advance on a match, otherwise record a diagnostic
and do not advance. -/
def Parser.expect_peek (p : Parser) (tok : Token) : Bool × Parser :=
  if p.peek_token_is tok then (true, p.next_token)
  else (false, p.peek_error tok)

/-- `Parser::errors_len`. -/
def Parser.errors_len (p : Parser) : Nat :=
  p.errors.length

/-- `Parser::get_errors`. -/
def Parser.get_errors (p : Parser) : List String :=
  p.errors

/-- The `Precedence` enum with its numeric discriminants. -/
inductive Precedence where
  | Lowest
  | Equals
  | LessGreater
  | Sum
  | Product
  | PrefixP
  | Call
deriving DecidableEq, Repr

/-- Discriminant values of the `Precedence` enum. -/
def Precedence.toNat : Precedence → Nat
  | .Lowest => 0
  | .Equals => 1
  | .LessGreater => 2
  | .Sum => 3
  | .Product => 4
  | .PrefixP => 5
  | .Call => 6

/-- The derived `Ord`-based `<` on `Precedence` (discriminant order). -/
def Precedence.ltb (a b : Precedence) : Bool :=
  decide (a.toNat < b.toNat)

/-- `Parser::peek_precedence`: precedence table applied to the peek token. -/
def Parser.peek_precedence (p : Parser) : Precedence :=
  match p.peek with
  | Token.Eq => Precedence.Equals
  | Token.NotEq => Precedence.Equals
  | Token.Lt => Precedence.LessGreater
  | Token.Gt => Precedence.LessGreater
  | Token.Plus => Precedence.Sum
  | Token.Minus => Precedence.Sum
  | Token.Asterisk => Precedence.Product
  | Token.Slash => Precedence.Product
  | _ => Precedence.Lowest

/-- `Parser::cur_precedence`: precedence table applied to the current token. -/
def Parser.cur_precedence (p : Parser) : Precedence :=
  match p.cur with
  | Token.Eq => Precedence.Equals
  | Token.NotEq => Precedence.Equals
  | Token.Lt => Precedence.LessGreater
  | Token.Gt => Precedence.LessGreater
  | Token.Plus => Precedence.Sum
  | Token.Minus => Precedence.Sum
  | Token.Asterisk => Precedence.Product
  | Token.Slash => Precedence.Product
  | _ => Precedence.Lowest

/-- Outcome of running a piece of the parser: a value together with the
parser state after it, fuel exhaustion (the Rust loop/recursion did not
finish within the given fuel), or a Rust `panic!`. -/
inductive Res (α : Type) where
  | ok (a : α) (p : Parser)
  | outOfFuel
  | panicked
deriving DecidableEq, Repr

/-- `Parser::parse_identifier`; `none` models the `panic!("unreachable")`
branch taken when the current token is not an identifier token. -/
def parse_identifier (p : Parser) : Option Expression :=
  match p.cur with
  | Token.Ident v => some (Expression.Identifier p.cur v)
  | _ => none

/-- `Parser::parse_integer_literal`; the outer `none` models the
`panic!("unreachable")` branch, the inner option the silent failure of
`parse::<i64>` on malformed digit text. -/
def parse_integer_literal (p : Parser) : Option (Option Expression) :=
  match p.cur with
  | Token.Int v =>
    some (match parseI64 v with
      | some i => some (Expression.Integer p.cur i)
      | none => none)
  | _ => none

/-- `Parser::parse_boolean_literal`. -/
def parse_boolean_literal (p : Parser) : Expression :=
  Expression.Boolean p.cur (decide (p.cur = Token.True))

/-- The infix-operator resolution at the top of `parse_infix_expression`;
`none` is its `_ => return None` fallback arm. -/
def infixOperatorOf : Token → Option InfixOperator
  | Token.Plus => some InfixOperator.Plus
  | Token.Minus => some InfixOperator.Minus
  | Token.Asterisk => some InfixOperator.Asterisk
  | Token.Slash => some InfixOperator.Slash
  | Token.Eq => some InfixOperator.Eq
  | Token.NotEq => some InfixOperator.NotEq
  | Token.Lt => some InfixOperator.Lt
  | Token.Gt => some InfixOperator.Gt
  | _ => none

/-- The prefix-operator resolution at the top of `parse_prefix_expression`;
`none` is its `_ => return None` fallback arm. -/
def prefixOperatorOf : Token → Option PrefixOperator
  | Token.Minus => some PrefixOperator.Minus
  | Token.Bang => some PrefixOperator.Bang
  | _ => none

/-- Whether a token is one of the eight operator tokens matched by the arm
of the infix loop in `parse_expression`. -/
def Token.isOp : Token → Bool
  | Token.Plus | Token.Minus | Token.Slash | Token.Asterisk
  | Token.Eq | Token.NotEq | Token.Lt | Token.Gt => true
  | _ => false

mutual

/-- `Parser::parse_expression`: prefix dispatch on the current token, then
the infix loop (embedded as `infixLoop`). -/
def parse_expression : Nat → Precedence → Parser → Res (Option Expression)
  | 0, _, _ => Res.outOfFuel
  | fuel + 1, precedence, p =>
    let step : Res (Option Expression) :=
      match p.cur with
      | Token.Ident _ =>
        match parse_identifier p with
        | some e => Res.ok (some e) p
        | none => Res.panicked
      | Token.Int _ =>
        match parse_integer_literal p with
        | some r => Res.ok r p
        | none => Res.panicked
      | Token.Bang => parse_prefix_expression fuel p
      | Token.Minus => parse_prefix_expression fuel p
      | Token.True => Res.ok (some (parse_boolean_literal p)) p
      | Token.False => Res.ok (some (parse_boolean_literal p)) p
      | Token.LParen => parse_grouped_expression fuel p
      | t => Res.ok none
          { p with errors := p.errors ++ ["no prefix parse fn for " ++ t.fmt] }
    match step with
    | Res.ok left p => infixLoop fuel precedence left p
    | Res.outOfFuel => Res.outOfFuel
    | Res.panicked => Res.panicked

/-- The `while` loop of `parse_expression` (its lines 135-154): as long as
peek is not a semicolon and out-binds the minimum precedence, fold the next
infix operator into the accumulated left expression. -/
def infixLoop : Nat → Precedence → Option Expression → Parser → Res (Option Expression)
  | 0, _, _, _ => Res.outOfFuel
  | fuel + 1, precedence, left, p =>
    if !(p.peek_token_is Token.Semicolon) && Precedence.ltb precedence p.peek_precedence then
      if p.peek.isOp then
        let p := p.next_token
        match left with
        | none => Res.ok none p
        | some l =>
          match parse_infix_expression fuel l p with
          | Res.ok newLeft p => infixLoop fuel precedence newLeft p
          | Res.outOfFuel => Res.outOfFuel
          | Res.panicked => Res.panicked
      else Res.ok left p
    else Res.ok left p

/-- `Parser::parse_prefix_expression`. -/
def parse_prefix_expression : Nat → Parser → Res (Option Expression)
  | 0, _ => Res.outOfFuel
  | fuel + 1, p =>
    match prefixOperatorOf p.cur with
    | none => Res.ok none p
    | some operator =>
      let tok := p.cur
      let p := p.next_token
      match parse_expression fuel Precedence.PrefixP p with
      | Res.ok (some exp) p =>
        Res.ok (some (Expression.PrefixExpression tok operator exp)) p
      | Res.ok none p => Res.ok none p
      | Res.outOfFuel => Res.outOfFuel
      | Res.panicked => Res.panicked

/-- `Parser::parse_infix_expression`. -/
def parse_infix_expression : Nat → Expression → Parser → Res (Option Expression)
  | 0, _, _ => Res.outOfFuel
  | fuel + 1, left, p =>
    match infixOperatorOf p.cur with
    | none => Res.ok none p
    | some operator =>
      let tok := p.cur
      let precedence := p.cur_precedence
      let p := p.next_token
      match parse_expression fuel precedence p with
      | Res.ok (some exp) p =>
        Res.ok (some (Expression.InfixExpression tok left operator exp)) p
      | Res.ok none p => Res.ok none p
      | Res.outOfFuel => Res.outOfFuel
      | Res.panicked => Res.panicked

/-- `Parser::parse_grouped_expression`. -/
def parse_grouped_expression : Nat → Parser → Res (Option Expression)
  | 0, _ => Res.outOfFuel
  | fuel + 1, p =>
    let p := p.next_token
    match parse_expression fuel Precedence.Lowest p with
    | Res.ok exp p =>
      match p.expect_peek Token.RParen with
      | (true, p) => Res.ok exp p
      | (false, p) => Res.ok none p
    | Res.outOfFuel => Res.outOfFuel
    | Res.panicked => Res.panicked

end

/-- The scan-to-semicolon loop of `parse_let_statement` (lines 89-91) and
`parse_return_statement` (lines 98-100): advance until the current token is
a semicolon. -/
def scanToSemicolon : Nat → Parser → Res Unit
  | 0, _ => Res.outOfFuel
  | fuel + 1, p =>
    if p.cur_token_is Token.Semicolon then Res.ok () p
    else scanToSemicolon fuel p.next_token

/-- `Parser::parse_let_statement`. -/
def parse_let_statement (fuel : Nat) (p : Parser) : Res (Option Statement) :=
  let tok := p.cur
  match p.peek with
  | Token.Ident v =>
    let p := p.next_token
    let name : Identifier := { tok := p.cur, value := v }
    match p.expect_peek Token.Assign with
    | (false, p) => Res.ok none p
    | (true, p) =>
      match scanToSemicolon fuel p with
      | Res.ok _ p =>
        Res.ok (some (Statement.LetStatement { tok := tok, name := name })) p
      | Res.outOfFuel => Res.outOfFuel
      | Res.panicked => Res.panicked
  | _ =>
    Res.ok none
      { p with errors := p.errors ++
          ["expected next token to be Token::Ident, got " ++ p.peek.fmt ++ " instead"] }

/-- `Parser::parse_return_statement`. -/
def parse_return_statement (fuel : Nat) (p : Parser) : Res (Option Statement) :=
  let tok := p.cur
  let p := p.next_token
  match scanToSemicolon fuel p with
  | Res.ok _ p => Res.ok (some (Statement.ReturnStatement { tok := tok })) p
  | Res.outOfFuel => Res.outOfFuel
  | Res.panicked => Res.panicked

/-- `Parser::parse_expression_statement`. -/
def parse_expression_statement (fuel : Nat) (p : Parser) : Res (Option Statement) :=
  let tok := p.cur
  match parse_expression fuel Precedence.Lowest p with
  | Res.ok (some e) p =>
    let res := some (Statement.ExpressionStatement { tok := tok, expression := e })
    let p := if p.peek_token_is Token.Semicolon then p.next_token else p
    Res.ok res p
  | Res.ok none p => Res.ok none p
  | Res.outOfFuel => Res.outOfFuel
  | Res.panicked => Res.panicked

/-- `Parser::parse_statement`: dispatch on the current token. -/
def parse_statement (fuel : Nat) (p : Parser) : Res (Option Statement) :=
  match p.cur with
  | Token.Let => parse_let_statement fuel p
  | Token.Return => parse_return_statement fuel p
  | _ => parse_expression_statement fuel p

/-- The driver loop of `Parser::parse`: one statement attempt and one window
advance per iteration until the current token is end-of-input. -/
def parseLoop : Nat → List Statement → Parser → Res (List Statement)
  | 0, _, _ => Res.outOfFuel
  | fuel + 1, acc, p =>
    if p.cur_token_is Token.Eof then Res.ok acc p
    else
      match parse_statement fuel p with
      | Res.ok stmtOpt p =>
        let acc := match stmtOpt with
          | some s => acc ++ [s]
          | none => acc
        parseLoop fuel acc p.next_token
      | Res.outOfFuel => Res.outOfFuel
      | Res.panicked => Res.panicked

/-- `Parser::parse`. -/
def Parser.parse (fuel : Nat) (p : Parser) : Res Program :=
  match parseLoop fuel [] p with
  | Res.ok stmts p => Res.ok { statements := stmts } p
  | Res.outOfFuel => Res.outOfFuel
  | Res.panicked => Res.panicked

/-- Modelled from the spec: source text of a prefix operator (spec §8
re-serialization, `ast.rs` is external). -/
def PrefixOperator.string : PrefixOperator → String
  | .Minus => "-"
  | .Bang => "!"

/-- Modelled from the spec: source text of an infix operator (spec §8). -/
def InfixOperator.string : InfixOperator → String
  | .Plus => "+"
  | .Minus => "-"
  | .Asterisk => "*"
  | .Slash => "/"
  | .Eq => "=="
  | .NotEq => "!="
  | .Lt => "<"
  | .Gt => ">"

/-- Modelled from the spec: fully parenthesized re-serialization of an
expression tree — each Infix node as `(left op right)`, each Prefix node as
`(op operand)` (spec §8). -/
def Expression.string : Expression → String
  | .Identifier _ v => v
  | .Integer _ i => toString i
  | .Boolean _ b => if b then "true" else "false"
  | .PrefixExpression _ op r => "(" ++ op.string ++ r.string ++ ")"
  | .InfixExpression _ l op r =>
    "(" ++ l.string ++ " " ++ op.string ++ " " ++ r.string ++ ")"

/-- Modelled from the spec: serialized form of a statement; the spec fixes
it only for expression statements (spec §8, two-statement separation). -/
def Statement.string : Statement → String
  | .ExpressionStatement s => s.expression.string
  | _ => ""

/-- Modelled from the spec: a program serializes to the concatenation of its
statements' serialized forms (spec §8). -/
def Program.string (pr : Program) : String :=
  pr.statements.foldl (fun acc s => acc ++ s.string) ""

/-- Run the parser on a token stream (as the repository's tests do) and
re-serialize the resulting program; `none` when the run exhausts the fuel or
panics. -/
def programStringOf (toks : List Token) : Option String :=
  match Parser.parse 100 (Parser.new toks) with
  | Res.ok prog _ => some prog.string
  | Res.outOfFuel => none
  | Res.panicked => none

/-- Whether an outcome is a Rust `panic!`. -/
def Res.isPanic : {α : Type} → Res α → Bool
  | _, Res.panicked => true
  | _, _ => false

/-- Invariant of every parser operation run from state `p`: an `ok` outcome
only ever extends the diagnostics list (the old list stays a prefix of the
new one, so no appended entry is modified or removed), and the `panicked`
outcome never happens. -/
def GoodFrom (p : Parser) {α : Type} : Res α → Prop
  | Res.ok _ p' => p.errors <+: p'.errors
  | Res.outOfFuel => True
  | Res.panicked => False

/-- The precedence table of `peek_precedence`/`cur_precedence` as a function
of the token alone. -/
def tokenPrecedence : Token → Precedence
  | Token.Eq => Precedence.Equals
  | Token.NotEq => Precedence.Equals
  | Token.Lt => Precedence.LessGreater
  | Token.Gt => Precedence.LessGreater
  | Token.Plus => Precedence.Sum
  | Token.Minus => Precedence.Sum
  | Token.Asterisk => Precedence.Product
  | Token.Slash => Precedence.Product
  | _ => Precedence.Lowest

/-- The token of each infix operator. -/
def InfixOperator.tok : InfixOperator → Token
  | .Plus => Token.Plus
  | .Minus => Token.Minus
  | .Asterisk => Token.Asterisk
  | .Slash => Token.Slash
  | .Eq => Token.Eq
  | .NotEq => Token.NotEq
  | .Lt => Token.Lt
  | .Gt => Token.Gt

/-- The table precedence of each infix operator. -/
def InfixOperator.prec (op : InfixOperator) : Precedence :=
  tokenPrecedence op.tok

/-- The token of each prefix operator. -/
def PrefixOperator.tok : PrefixOperator → Token
  | .Minus => Token.Minus
  | .Bang => Token.Bang

/-- The parser state whose remaining input is exactly the given token
stream: the two-token window holds the first two tokens and the lexer the
rest, with the lexer's `Eof`-forever contract (spec §6) padding short
streams. -/
def mkP : List Token → List String → Parser
  | t1 :: t2 :: l, errs => { l := l, cur := t1, peek := t2, errors := errs }
  | [t1], errs => { l := [], cur := t1, peek := Token.Eof, errors := errs }
  | [], errs => { l := [], cur := Token.Eof, peek := Token.Eof, errors := errs }

/-- Abstract expression shapes over the claim's input alphabet: atoms, the
two prefix operators, the eight binary operators and parentheses. -/
inductive SExp where
  | ident (s : String)
  | intLit (s : String)
  | boolLit (b : Bool)
  | pre (op : PrefixOperator) (x : SExp)
  | inf (l : SExp) (op : InfixOperator) (r : SExp)
  | paren (x : SExp)

/-- The token stream of a shape: parentheses appear exactly at `paren`
nodes, every other node flattens to its operator/atom tokens in source
order. -/
def SExp.tokens : SExp → List Token
  | .ident s => [Token.Ident s]
  | .intLit s => [Token.Int s]
  | .boolLit true => [Token.True]
  | .boolLit false => [Token.False]
  | .pre op x => op.tok :: x.tokens
  | .inf l op r => l.tokens ++ op.tok :: r.tokens
  | .paren x => Token.LParen :: x.tokens ++ [Token.RParen]

/-- The last token of a shape's stream. -/
def SExp.lastTok : SExp → Token
  | .ident s => Token.Ident s
  | .intLit s => Token.Int s
  | .boolLit true => Token.True
  | .boolLit false => Token.False
  | .pre _ x => x.lastTok
  | .inf _ _ r => r.lastTok
  | .paren _ => Token.RParen

/-- The AST the shape denotes; parentheses are transparent (they only
group), every other node maps to its `Expression` node. -/
def SExp.denote : SExp → Expression
  | .ident s => Expression.Identifier (Token.Ident s) s
  | .intLit s => Expression.Integer (Token.Int s) ((parseI64 s).getD 0)
  | .boolLit true => Expression.Boolean Token.True true
  | .boolLit false => Expression.Boolean Token.False false
  | .pre op x => Expression.PrefixExpression op.tok op x.denote
  | .inf l op r => Expression.InfixExpression op.tok l.denote op r.denote
  | .paren x => x.denote

/-- Whether the shape's root is a binary operator node. -/
def SExp.isInf : SExp → Bool
  | .inf _ _ _ => true
  | _ => false

/-- Left-child discipline under an operator `op`: a bare infix left child
must bind at least as tightly as `op` (equal precedence associates to the
left); anything else is unconstrained. -/
def SExp.leftOkAt (op : InfixOperator) : SExp → Bool
  | .inf _ lop _ => decide (op.prec.toNat ≤ lop.prec.toNat)
  | _ => true

/-- Right-child discipline under an operator `op`: a bare infix right child
must bind strictly more tightly than `op`; anything else is unconstrained. -/
def SExp.rightOkAt (op : InfixOperator) : SExp → Bool
  | .inf _ rop _ => decide (op.prec.toNat < rop.prec.toNat)
  | _ => true

/-- The shape dictated by the precedence table with left-to-right
association: integer text must convert, a prefix operand is never a bare
infix node (prefix out-binds every infix operator), a left child that is an
infix node binds at least as tightly as its parent (equal precedence
associates to the left), a right child that is an infix node binds strictly
more tightly, and a parenthesized subtree is unconstrained (parentheses
reset the minimum precedence to lowest). -/
def SExp.wf : SExp → Bool
  | .ident _ => true
  | .intLit s => (parseI64 s).isSome
  | .boolLit _ => true
  | .pre _ x => x.wf && !x.isInf
  | .inf l op r => l.wf && r.wf && l.leftOkAt op && r.rightOkAt op
  | .paren x => x.wf

/-- Fuel budget sufficient to parse a shape. -/
def SExp.cost : SExp → Nat
  | .ident _ => 1
  | .intLit _ => 1
  | .boolLit _ => 1
  | .pre _ x => x.cost + 4
  | .inf l _ r => l.cost + r.cost + 5
  | .paren x => x.cost + 4

/-- Entry condition: a call at this minimum precedence consumes the whole
shape (its top operator, if any, out-binds the minimum). -/
def entryOk (precedence : Precedence) : SExp → Bool
  | .inf _ op _ => Precedence.ltb precedence op.prec
  | _ => true

/-- Boundary condition: the token following the shape stops every parse
level inside the shape (its precedence does not exceed the shape's top
operator precedence). -/
def innerStop (e : SExp) (t : Token) : Bool :=
  match e with
  | .inf _ op _ => decide ((tokenPrecedence t).toNat ≤ op.prec.toNat)
  | _ => true

/-- Resumption statement for a shape `e`: whenever the enclosing infix loop
behaves uniformly (for all sufficient fuel) once `e` is fully parsed,
`parse_expression` on `e`'s tokens followed by the rest behaves the same
way — the engine parses exactly `e.denote` from `e.tokens` and hands the
loop the remaining input. -/
def ResumeP (e : SExp) : Prop :=
  ∀ (precedence : Precedence) (rest : List Token) (errs : List String)
    (res : Res (Option Expression)) (k : Nat),
    e.wf = true →
    entryOk precedence e = true →
    innerStop e (rest.headD Token.Eof) = true →
    (∀ g, k ≤ g →
      infixLoop g precedence (some e.denote) (mkP (e.lastTok :: rest) errs) = res) →
    ∀ fuel, e.cost + k + 1 ≤ fuel →
      parse_expression fuel precedence (mkP (e.tokens ++ rest) errs) = res

/-- The scan-to-semicolon loop never exits once the lexer is exhausted and
neither of the two lookahead tokens is a semicolon: the window becomes
`(Eof, Eof)` and every iteration leaves it there. -/
theorem scanToSemicolon_stuck : ∀ fuel (p : Parser), p.cur ≠ Token.Semicolon →
    p.peek ≠ Token.Semicolon → p.l = [] → scanToSemicolon fuel p = Res.outOfFuel := by
  intro fuel
  induction fuel with
  | zero => intro p _ _ _; rfl
  | succ n ih =>
    intro p h1 h2 h3
    have hc : p.cur_token_is Token.Semicolon = false := by
      simp [Parser.cur_token_is, h1]
    simp only [scanToSemicolon, hc, Bool.false_eq_true, if_false]
    apply ih
    · simpa [Parser.next_token, h3, lexNext] using h2
    · simp [Parser.next_token, h3, lexNext]
    · simp [Parser.next_token, h3, lexNext]

/-- C1: the claim that `Parser::parse` terminates on every finite token
stream is false on the code: on the token stream of `"let x = 5"` (no
semicolon before end-of-input) the scan-to-semicolon loop of
`parse_let_statement` runs forever, modelled here by the run exhausting
every amount of fuel. -/
theorem parse_runs_out_of_fuel_without_semicolon (fuel : Nat) :
    Parser.parse fuel
        (Parser.new [Token.Let, Token.Ident "x", Token.Assign, Token.Int "5"]) =
      Res.outOfFuel := by
  match fuel with
  | 0 => rfl
  | n + 1 =>
    have hscan : scanToSemicolon n
        { l := [], cur := Token.Assign, peek := Token.Int "5", errors := [] } =
        Res.outOfFuel :=
      scanToSemicolon_stuck n _ (by decide) (by decide) rfl
    simp [Parser.parse, parseLoop, Parser.cur_token_is, Parser.new, lexNext,
      parse_statement, parse_let_statement, Parser.expect_peek, Parser.peek_token_is,
      Parser.next_token, hscan]

/-- C6: on the token stream of `"let x 5;"` (missing `=`), `parse` returns a
`Program` normally (no panic, no divergence), the diagnostics list ends up
non-empty, and the failed let statement is omitted: the program holds only
the recovered expression statement `5`, no let statement and no
placeholder. -/
theorem let_missing_assign_recovers :
    Parser.parse 20 (Parser.new [Token.Let, Token.Ident "x", Token.Int "5",
        Token.Semicolon]) =
      Res.ok
        { statements := [Statement.ExpressionStatement
            { tok := Token.Int "5", expression := Expression.Integer (Token.Int "5") 5 }] }
        { l := [], cur := Token.Eof, peek := Token.Eof,
          errors := ["expected next token to be Assign, got Int(\n    \"5\",\n) instead"] }
    ∧ (["expected next token to be Assign, got Int(\n    \"5\",\n) instead"] :
        List String) ≠ []
    ∧ (∀ s ∈ [Statement.ExpressionStatement
        { tok := Token.Int "5", expression := Expression.Integer (Token.Int "5") 5 }],
        (match s with
          | Statement.LetStatement _ => false
          | _ => true) = true) :=
  ⟨rfl, by decide, by decide⟩

/-- C7: the token stream of `"let x = 5; let y = 10; let foobar = 838383;"`
parses to exactly three statements, all let statements, binding `x`, `y`,
`foobar` in that order, with no bound-value expression retained (a
`LetStatement` carries only its token and identifier), and no diagnostics. -/
theorem three_let_statements :
    Parser.parse 40 (Parser.new [Token.Let, Token.Ident "x", Token.Assign,
        Token.Int "5", Token.Semicolon, Token.Let, Token.Ident "y", Token.Assign,
        Token.Int "10", Token.Semicolon, Token.Let, Token.Ident "foobar",
        Token.Assign, Token.Int "838383", Token.Semicolon]) =
      Res.ok
        { statements := [
            Statement.LetStatement ⟨Token.Let, ⟨Token.Ident "x", "x"⟩⟩,
            Statement.LetStatement ⟨Token.Let, ⟨Token.Ident "y", "y"⟩⟩,
            Statement.LetStatement ⟨Token.Let, ⟨Token.Ident "foobar", "foobar"⟩⟩] }
        { l := [], cur := Token.Eof, peek := Token.Eof, errors := [] } :=
  rfl

/-- The infix loop entered with no left expression returns no expression in
one step and leaves the diagnostics list untouched. -/
theorem infixLoop_none (fuel : Nat) (precedence : Precedence) (p : Parser) :
    ∃ p', infixLoop (fuel + 1) precedence none p = Res.ok none p'
      ∧ p'.errors = p.errors := by
  simp only [infixLoop]
  split
  · split
    · exact ⟨p.next_token, rfl, rfl⟩
    · exact ⟨p, rfl, rfl⟩
  · exact ⟨p, rfl, rfl⟩

/-- C3: a sub-call of the expression engine that yields no expression voids
the whole chain up to the statement boundary: the infix loop never rebuilds
a lost left expression, `parse_expression_statement` yields no statement
when `parse_expression` yields no expression, and the driver loop pushes
nothing into the program for a failed statement. -/
theorem no_partial_tree_on_failure :
    (∀ fuel precedence (p : Parser),
      ∃ p', infixLoop (fuel + 1) precedence none p = Res.ok none p')
    ∧ (∀ fuel (p p' : Parser),
      parse_expression fuel Precedence.Lowest p = Res.ok none p' →
      parse_expression_statement fuel p = Res.ok none p')
    ∧ (∀ fuel (acc : List Statement) (p p' : Parser),
      p.cur_token_is Token.Eof = false →
      parse_statement fuel p = Res.ok none p' →
      parseLoop (fuel + 1) acc p = parseLoop fuel acc p'.next_token) := by
  refine ⟨?_, ?_, ?_⟩
  · intro fuel precedence p
    obtain ⟨p', hp', _⟩ := infixLoop_none fuel precedence p
    exact ⟨p', hp'⟩
  · intro fuel p p' h
    simp [parse_expression_statement, h]
  · intro fuel acc p p' hc h
    simp [parseLoop, hc, h]

/-- C3 witness: on the token stream of `";"` the prefix dispatch fails, the
expression statement yields no statement, and the driver loop pushes
nothing. -/
theorem no_partial_tree_on_failure_witness :
    (∃ p', infixLoop 3 Precedence.Lowest none (Parser.new [Token.Semicolon]) =
      Res.ok none p')
    ∧ parse_expression_statement 5 (Parser.new [Token.Semicolon]) =
        Res.ok none
          (⟨[], Token.Semicolon, Token.Eof, ["no prefix parse fn for Semicolon"]⟩ :
            Parser)
    ∧ parseLoop 6 [] (Parser.new [Token.Semicolon]) =
        parseLoop 5 []
          (Parser.next_token
            (⟨[], Token.Semicolon, Token.Eof, ["no prefix parse fn for Semicolon"]⟩ :
              Parser)) :=
  ⟨no_partial_tree_on_failure.1 2 Precedence.Lowest (Parser.new [Token.Semicolon]),
   no_partial_tree_on_failure.2.1 5 (Parser.new [Token.Semicolon]) _ (by decide),
   no_partial_tree_on_failure.2.2 5 [] (Parser.new [Token.Semicolon]) _ (by decide)
     (by decide)⟩

/-- C4: `expect_peek(tag)` either advances the window exactly once and
returns success with the diagnostics unchanged (peek matches), or appends
exactly one "expected next token to be .., got .. instead" diagnostic and
returns failure with the lexer and both lookahead tokens unchanged (peek
differs). -/
theorem expect_peek_contract (p : Parser) (tok : Token) :
    (p.peek = tok →
      p.expect_peek tok = (true, p.next_token)
        ∧ p.next_token.errors = p.errors
        ∧ p.next_token.cur = p.peek)
    ∧ (p.peek ≠ tok →
      p.expect_peek tok = (false,
        { l := p.l, cur := p.cur, peek := p.peek, errors := p.errors ++
          ["expected next token to be " ++ tok.fmt ++ ", got " ++ p.peek.fmt ++
            " instead"] })) := by
  constructor
  · intro h
    simp [Parser.expect_peek, Parser.peek_token_is, h, Parser.next_token]
  · intro h
    simp [Parser.expect_peek, Parser.peek_token_is, h, Parser.peek_error]

/-- C4 witness: both branches of `expect_peek` at a concrete parser state
whose peek token is `=`. -/
theorem expect_peek_contract_witness :
    ((Parser.new [Token.Let, Token.Assign]).expect_peek Token.Assign =
        (true, (Parser.new [Token.Let, Token.Assign]).next_token)
      ∧ (Parser.new [Token.Let, Token.Assign]).next_token.errors =
          (Parser.new [Token.Let, Token.Assign]).errors
      ∧ (Parser.new [Token.Let, Token.Assign]).next_token.cur =
          (Parser.new [Token.Let, Token.Assign]).peek)
    ∧ (Parser.new [Token.Let, Token.Assign]).expect_peek Token.Semicolon =
        (false,
          (⟨[], Token.Let, Token.Assign,
            ["expected next token to be Semicolon, got Assign instead"]⟩ : Parser)) :=
  ⟨(expect_peek_contract (Parser.new [Token.Let, Token.Assign]) Token.Assign).1 rfl,
   (expect_peek_contract (Parser.new [Token.Let, Token.Assign]) Token.Semicolon).2
     (by decide)⟩

/-- C5: when the current token is an integer token whose text does not parse
as a signed 64-bit integer, `parse_integer_literal` yields no expression
without touching the diagnostics, and the whole `parse_expression` call
returns no expression with the diagnostics list unchanged. -/
theorem integer_silent_failure :
    (∀ (p : Parser) v, p.cur = Token.Int v → parseI64 v = none →
      parse_integer_literal p = some none)
    ∧ (∀ fuel precedence (p : Parser) v, p.cur = Token.Int v → parseI64 v = none →
      ∃ p', parse_expression (fuel + 2) precedence p = Res.ok none p'
        ∧ p'.errors = p.errors) := by
  constructor
  · intro p v hc hv
    simp [parse_integer_literal, hc, hv]
  · intro fuel precedence p v hc hv
    have h1 : parse_integer_literal p = some none := by
      simp [parse_integer_literal, hc, hv]
    obtain ⟨p', hp', he⟩ := infixLoop_none fuel precedence p
    refine ⟨p', ?_, he⟩
    show parse_expression (fuel + 1 + 1) precedence p = Res.ok none p'
    simp only [parse_expression, hc, h1]
    exact hp'

/-- C5 witness: the out-of-range integer text `"9223372036854775808"`
(2^63) fails silently: no expression, no diagnostic. -/
theorem integer_silent_failure_witness :
    parseI64 "9223372036854775808" = none
    ∧ (∃ p', parse_expression 2 Precedence.Lowest
        (Parser.new [Token.Int "9223372036854775808"]) = Res.ok none p'
      ∧ p'.errors = (Parser.new [Token.Int "9223372036854775808"]).errors) :=
  ⟨by decide,
   integer_silent_failure.2 0 Precedence.Lowest
     (Parser.new [Token.Int "9223372036854775808"]) "9223372036854775808"
     rfl (by decide)⟩

/-- Whenever some precedence is strictly below the peek token's precedence,
the peek token is one of the eight operator tokens: every other token has
the lowest precedence. -/
theorem ltb_peek_isOp (precedence : Precedence) (p : Parser)
    (h : Precedence.ltb precedence p.peek_precedence = true) :
    p.peek.isOp = true := by
  cases hpk : p.peek <;>
    simp [Parser.peek_precedence, hpk, Precedence.ltb, Precedence.toNat,
      Token.isOp] at h ⊢

/-- C9: whenever the infix loop's body runs, the peek token is one of the
eight operator tokens, so the loop's non-operator arm never runs (under the
loop guard the loop always takes the operator arm) and the fallback arm of
`parse_infix_expression` never fires (operator resolution succeeds on every
operator token). -/
theorem infix_loop_sees_only_operators :
    (∀ (precedence : Precedence) (p : Parser),
      Precedence.ltb precedence p.peek_precedence = true → p.peek.isOp = true)
    ∧ (∀ t : Token, t.isOp = true → (infixOperatorOf t).isSome = true)
    ∧ (∀ fuel precedence left (p : Parser),
      (!(p.peek_token_is Token.Semicolon)
          && Precedence.ltb precedence p.peek_precedence) = true →
      infixLoop (fuel + 1) precedence left p =
        (match left with
        | none => Res.ok none p.next_token
        | some l =>
          match parse_infix_expression fuel l p.next_token with
          | Res.ok newLeft p' => infixLoop fuel precedence newLeft p'
          | Res.outOfFuel => Res.outOfFuel
          | Res.panicked => Res.panicked)) := by
  refine ⟨fun precedence p h => ltb_peek_isOp precedence p h, ?_, ?_⟩
  · intro t h
    cases t <;> simp [Token.isOp, infixOperatorOf] at h ⊢
  · intro fuel precedence left p h
    have hop : p.peek.isOp = true :=
      ltb_peek_isOp precedence p (Bool.and_eq_true _ _ ▸ h).2
    simp only [infixLoop, h, hop, if_true]

/-- Chain the invariant across sequenced operations. -/
theorem goodFrom_trans {α : Type} {p p1 : Parser} {r : Res α}
    (h1 : p.errors <+: p1.errors) (h2 : GoodFrom p1 r) : GoodFrom p r := by
  cases r with
  | ok a p2 => exact h1.trans h2
  | outOfFuel => exact trivial
  | panicked => exact h2.elim

/-- `expect_peek` only ever appends to the diagnostics list. -/
theorem expect_peek_errors (p : Parser) (t : Token) :
    p.errors <+: (p.expect_peek t).2.errors := by
  simp only [Parser.expect_peek]
  split
  · exact List.prefix_refl _
  · exact List.prefix_append _ _

/-- The whole expression engine preserves the invariant: diagnostics grow
append-only and no `panic!` branch runs. -/
theorem exprGood : ∀ fuel,
    (∀ precedence (p : Parser), GoodFrom p (parse_expression fuel precedence p))
    ∧ (∀ precedence left (p : Parser), GoodFrom p (infixLoop fuel precedence left p))
    ∧ (∀ p : Parser, GoodFrom p (parse_prefix_expression fuel p))
    ∧ (∀ left (p : Parser), GoodFrom p (parse_infix_expression fuel left p))
    ∧ (∀ p : Parser, GoodFrom p (parse_grouped_expression fuel p)) := by
  intro fuel
  induction fuel with
  | zero =>
    exact ⟨fun _ _ => trivial, fun _ _ _ => trivial, fun _ => trivial,
      fun _ _ => trivial, fun _ => trivial⟩
  | succ n ih =>
    obtain ⟨ihE, ihL, ihP, ihI, ihG⟩ := ih
    refine ⟨?_, ?_, ?_, ?_, ?_⟩
    · intro precedence p
      cases hc : p.cur
      case Ident v =>
        simp only [parse_expression, hc, parse_identifier]
        exact ihL precedence _ p
      case Int v =>
        simp only [parse_expression, hc, parse_integer_literal]
        cases hv : parseI64 v <;> simp only [hv] <;> exact ihL precedence _ p
      case Bang =>
        simp only [parse_expression, hc]
        cases hpp : parse_prefix_expression n p with
        | ok left p1 =>
          have h1 : p.errors <+: p1.errors := by
            have t := ihP p; rwa [hpp] at t
          exact goodFrom_trans h1 (ihL precedence left p1)
        | outOfFuel => exact trivial
        | panicked =>
          have t := ihP p; rw [hpp] at t; exact t.elim
      case Minus =>
        simp only [parse_expression, hc]
        cases hpp : parse_prefix_expression n p with
        | ok left p1 =>
          have h1 : p.errors <+: p1.errors := by
            have t := ihP p; rwa [hpp] at t
          exact goodFrom_trans h1 (ihL precedence left p1)
        | outOfFuel => exact trivial
        | panicked =>
          have t := ihP p; rw [hpp] at t; exact t.elim
      case True =>
        simp only [parse_expression, hc]
        exact ihL precedence _ p
      case False =>
        simp only [parse_expression, hc]
        exact ihL precedence _ p
      case LParen =>
        simp only [parse_expression, hc]
        cases hpg : parse_grouped_expression n p with
        | ok left p1 =>
          have h1 : p.errors <+: p1.errors := by
            have t := ihG p; rwa [hpg] at t
          exact goodFrom_trans h1 (ihL precedence left p1)
        | outOfFuel => exact trivial
        | panicked =>
          have t := ihG p; rw [hpg] at t; exact t.elim
      all_goals
        simp only [parse_expression, hc]
      all_goals
        exact goodFrom_trans (List.prefix_append _ _) (ihL precedence none _)
    · intro precedence left p
      simp only [infixLoop]
      split
      · split
        · cases left with
          | none => exact List.prefix_refl _
          | some l =>
            dsimp only
            cases hpi : parse_infix_expression n l p.next_token with
            | ok newLeft p2 =>
              have h1 : p.errors <+: p2.errors := by
                have t := ihI l p.next_token; rwa [hpi] at t
              exact goodFrom_trans h1 (ihL precedence newLeft p2)
            | outOfFuel => exact trivial
            | panicked =>
              have t := ihI l p.next_token; rw [hpi] at t; exact t.elim
        · exact List.prefix_refl _
      · exact List.prefix_refl _
    · intro p
      simp only [parse_prefix_expression]
      cases hpo : prefixOperatorOf p.cur with
      | none => exact List.prefix_refl _
      | some operator =>
        cases hpe : parse_expression n Precedence.PrefixP p.next_token with
        | ok r p2 =>
          have h1 : p.errors <+: p2.errors := by
            have t := ihE Precedence.PrefixP p.next_token; rwa [hpe] at t
          cases r <;> dsimp only <;> exact h1
        | outOfFuel => exact trivial
        | panicked =>
          have t := ihE Precedence.PrefixP p.next_token; rw [hpe] at t; exact t.elim
    · intro left p
      simp only [parse_infix_expression]
      cases hio : infixOperatorOf p.cur with
      | none => exact List.prefix_refl _
      | some operator =>
        cases hpe : parse_expression n p.cur_precedence p.next_token with
        | ok r p2 =>
          have h1 : p.errors <+: p2.errors := by
            have t := ihE p.cur_precedence p.next_token; rwa [hpe] at t
          cases r <;> dsimp only <;> exact h1
        | outOfFuel => exact trivial
        | panicked =>
          have t := ihE p.cur_precedence p.next_token; rw [hpe] at t; exact t.elim
    · intro p
      simp only [parse_grouped_expression]
      cases hpe : parse_expression n Precedence.Lowest p.next_token with
      | ok exp p2 =>
        dsimp only
        have h1 : p.errors <+: p2.errors := by
          have t := ihE Precedence.Lowest p.next_token; rwa [hpe] at t
        have h2 : p2.errors <+: (p2.expect_peek Token.RParen).2.errors :=
          expect_peek_errors p2 Token.RParen
        cases hep : p2.expect_peek Token.RParen with
        | mk b p3 =>
          rw [hep] at h2
          cases b <;> dsimp only <;> exact h1.trans h2
      | outOfFuel => exact trivial
      | panicked =>
        have t := ihE Precedence.Lowest p.next_token; rw [hpe] at t; exact t.elim

/-- The scan-to-semicolon loop preserves the invariant (it never touches
the diagnostics list). -/
theorem scanGood : ∀ fuel (p : Parser), GoodFrom p (scanToSemicolon fuel p) := by
  intro fuel
  induction fuel with
  | zero => exact fun _ => trivial
  | succ n ih =>
    intro p
    simp only [scanToSemicolon]
    split
    · exact List.prefix_refl _
    · exact ih p.next_token

/-- `parse_let_statement` preserves the invariant. -/
theorem letGood (fuel : Nat) (p : Parser) :
    GoodFrom p (parse_let_statement fuel p) := by
  cases hpk : p.peek
  case Ident v =>
    simp only [parse_let_statement, hpk]
    have h2 : p.next_token.errors <+:
        (p.next_token.expect_peek Token.Assign).2.errors :=
      expect_peek_errors p.next_token Token.Assign
    cases hep : p.next_token.expect_peek Token.Assign with
    | mk b p2 =>
      rw [hep] at h2
      cases b
      · dsimp only
        exact h2
      · dsimp only
        cases hsc : scanToSemicolon fuel p2 with
        | ok u p3 =>
          have h3 : p2.errors <+: p3.errors := by
            have t := scanGood fuel p2; rwa [hsc] at t
          exact h2.trans h3
        | outOfFuel => exact trivial
        | panicked =>
          have t := scanGood fuel p2; rw [hsc] at t; exact t.elim
  all_goals
    simp only [parse_let_statement, hpk]
  all_goals
    exact List.prefix_append _ _

/-- `parse_return_statement` preserves the invariant. -/
theorem returnGood (fuel : Nat) (p : Parser) :
    GoodFrom p (parse_return_statement fuel p) := by
  simp only [parse_return_statement]
  cases hsc : scanToSemicolon fuel p.next_token with
  | ok u p3 =>
    have t := scanGood fuel p.next_token
    rw [hsc] at t
    exact t
  | outOfFuel => exact trivial
  | panicked =>
    have t := scanGood fuel p.next_token; rw [hsc] at t; exact t.elim

/-- `parse_expression_statement` preserves the invariant. -/
theorem exprStmtGood (fuel : Nat) (p : Parser) :
    GoodFrom p (parse_expression_statement fuel p) := by
  simp only [parse_expression_statement]
  cases hpe : parse_expression fuel Precedence.Lowest p with
  | ok r p1 =>
    have h1 : p.errors <+: p1.errors := by
      have t := (exprGood fuel).1 Precedence.Lowest p; rwa [hpe] at t
    cases r with
    | some e =>
      dsimp only
      split <;> exact h1
    | none => exact h1
  | outOfFuel => exact trivial
  | panicked =>
    have t := (exprGood fuel).1 Precedence.Lowest p; rw [hpe] at t; exact t.elim

/-- `parse_statement` preserves the invariant. -/
theorem stmtGood (fuel : Nat) (p : Parser) :
    GoodFrom p (parse_statement fuel p) := by
  cases hc : p.cur <;> simp only [parse_statement, hc] <;>
    first
    | exact letGood fuel p
    | exact returnGood fuel p
    | exact exprStmtGood fuel p

/-- The driver loop preserves the invariant. -/
theorem parseLoopGood : ∀ fuel acc (p : Parser), GoodFrom p (parseLoop fuel acc p) := by
  intro fuel
  induction fuel with
  | zero => exact fun _ _ => trivial
  | succ n ih =>
    intro acc p
    simp only [parseLoop]
    split
    · exact List.prefix_refl _
    · cases hps : parse_statement n p with
      | ok stmtOpt p1 =>
        have h1 : p.errors <+: p1.errors := by
          have t := stmtGood n p; rwa [hps] at t
        exact goodFrom_trans h1 (ih _ p1.next_token)
      | outOfFuel => exact trivial
      | panicked =>
        have t := stmtGood n p; rw [hps] at t; exact t.elim

/-- `Parser::parse` preserves the invariant: diagnostics append-only, no
panic. -/
theorem parseGood (fuel : Nat) (p : Parser) : GoodFrom p (Parser.parse fuel p) := by
  simp only [Parser.parse]
  cases hpl : parseLoop fuel [] p with
  | ok stmts p1 =>
    have t := parseLoopGood fuel [] p
    rw [hpl] at t
    exact t
  | outOfFuel => exact trivial
  | panicked =>
    have t := parseLoopGood fuel [] p; rw [hpl] at t; exact t.elim

/-- C9 witness: at a concrete state whose peek token is `+`, the guard
holds, `+` is an operator, resolution succeeds, and the loop takes the
operator arm. -/
theorem infix_loop_sees_only_operators_witness :
    (Parser.new [Token.Int "1", Token.Plus]).peek.isOp = true
    ∧ (infixOperatorOf Token.Plus).isSome = true
    ∧ infixLoop 2 Precedence.Lowest none (Parser.new [Token.Int "1", Token.Plus]) =
        Res.ok none (Parser.new [Token.Int "1", Token.Plus]).next_token :=
  ⟨infix_loop_sees_only_operators.1 Precedence.Lowest
      (Parser.new [Token.Int "1", Token.Plus]) (by decide),
   infix_loop_sees_only_operators.2.1 Token.Plus (by decide),
   infix_loop_sees_only_operators.2.2 1 Precedence.Lowest none
     (Parser.new [Token.Int "1", Token.Plus]) (by decide)⟩

/-- C8: throughout a run of `parse` the diagnostics list is append-only —
the starting list is a prefix of the final one (so no previously appended
entry is modified or removed); `peek_error` and `expect_peek` only ever
append, `next_token` leaves the list unchanged, and the two accessors
`errors_len` and `get_errors` are pure functions of the state. -/
theorem errors_append_only :
    (∀ fuel (p : Parser) prog p', Parser.parse fuel p = Res.ok prog p' →
      p.errors <+: p'.errors)
    ∧ (∀ (p : Parser) t, p.errors <+: (p.peek_error t).errors)
    ∧ (∀ (p : Parser) t, p.errors <+: (p.expect_peek t).2.errors)
    ∧ (∀ p : Parser, p.next_token.errors = p.errors)
    ∧ (∀ p : Parser, p.errors_len = p.errors.length ∧ p.get_errors = p.errors) := by
  refine ⟨?_, ?_, ?_, ?_, ?_⟩
  · intro fuel p prog p' h
    have t := parseGood fuel p
    rw [h] at t
    exact t
  · intro p t
    exact List.prefix_append _ _
  · intro p t
    exact expect_peek_errors p t
  · intro p
    rfl
  · intro p
    exact ⟨rfl, rfl⟩

/-- C8 witness: across the run on the tokens of `"let x 5;"` the initially
empty diagnostics list is a prefix of the final one-entry list. -/
theorem errors_append_only_witness :
    ([] : List String) <+:
      ["expected next token to be Assign, got Int(\n    \"5\",\n) instead"] :=
  errors_append_only.1 20
    (Parser.new [Token.Let, Token.Ident "x", Token.Int "5", Token.Semicolon])
    { statements := [Statement.ExpressionStatement
        { tok := Token.Int "5", expression := Expression.Integer (Token.Int "5") 5 }] }
    (⟨[], Token.Eof, Token.Eof,
      ["expected next token to be Assign, got Int(\n    \"5\",\n) instead"]⟩ : Parser)
    rfl

/-- C10: the `panic!("unreachable")` branches of `parse_identifier` and
`parse_integer_literal` never execute: under the dispatch precondition each
returns a value, and no run of `parse` (which reaches them only through the
matching dispatch arms of `parse_expression`) ever panics, at any fuel and
from any state. -/
theorem unreachable_panics_never_fire :
    (∀ (p : Parser) v, p.cur = Token.Ident v →
      parse_identifier p = some (Expression.Identifier p.cur v))
    ∧ (∀ (p : Parser) v, p.cur = Token.Int v →
      (parse_integer_literal p).isSome = true)
    ∧ (∀ fuel (p : Parser), (Parser.parse fuel p).isPanic = false) := by
  refine ⟨?_, ?_, ?_⟩
  · intro p v h
    simp [parse_identifier, h]
  · intro p v h
    simp [parse_integer_literal, h]
  · intro fuel p
    have t := parseGood fuel p
    cases hr : Parser.parse fuel p with
    | ok prog p' => rfl
    | outOfFuel => rfl
    | panicked => rw [hr] at t; exact t.elim

/-- C10 witness: concrete states whose current token is an identifier token
and an integer token, and a concrete panic-free run. -/
theorem unreachable_panics_never_fire_witness :
    parse_identifier (Parser.new [Token.Ident "a"]) =
      some (Expression.Identifier (Parser.new [Token.Ident "a"]).cur "a")
    ∧ (parse_integer_literal (Parser.new [Token.Int "5"])).isSome = true
    ∧ (Parser.parse 9 (Parser.new [Token.Ident "a"])).isPanic = false :=
  ⟨unreachable_panics_never_fire.1 (Parser.new [Token.Ident "a"]) "a" rfl,
   unreachable_panics_never_fire.2.1 (Parser.new [Token.Int "5"]) "5" rfl,
   unreachable_panics_never_fire.2.2 9 (Parser.new [Token.Ident "a"])⟩

/-- Current token of a parser state over a nonempty stream. -/
theorem mkP_cur (t : Token) (ts : List Token) (errs : List String) :
    (mkP (t :: ts) errs).cur = t := by
  cases ts <;> rfl

/-- Peek token of a parser state over a nonempty stream. -/
theorem mkP_peek (t : Token) (ts : List Token) (errs : List String) :
    (mkP (t :: ts) errs).peek = ts.headD Token.Eof := by
  cases ts <;> rfl

/-- Advancing the window drops exactly the first stream token. -/
theorem mkP_next (t : Token) (ts : List Token) (errs : List String) :
    (mkP (t :: ts) errs).next_token = mkP ts errs := by
  cases ts with
  | nil => rfl
  | cons u l => cases l <;> rfl

/-- `peek_precedence` is the precedence table applied to the peek token. -/
theorem peek_precedence_eq (p : Parser) :
    p.peek_precedence = tokenPrecedence p.peek := by
  cases h : p.peek <;> simp [Parser.peek_precedence, tokenPrecedence, h]

/-- `cur_precedence` is the precedence table applied to the current token. -/
theorem cur_precedence_eq (p : Parser) :
    p.cur_precedence = tokenPrecedence p.cur := by
  cases h : p.cur <;> simp [Parser.cur_precedence, tokenPrecedence, h]

/-- Every infix operator's token is one of the loop's eight operator
tokens. -/
theorem isOp_tok (op : InfixOperator) : (InfixOperator.tok op).isOp = true := by
  cases op <;> rfl

/-- Operator resolution recovers the operator from its token. -/
theorem infixOperatorOf_tok (op : InfixOperator) :
    infixOperatorOf op.tok = some op := by
  cases op <;> rfl

/-- No operator token is a semicolon. -/
theorem opTok_ne_semicolon (op : InfixOperator) :
    decide (InfixOperator.tok op = Token.Semicolon) = false := by
  cases op <;> rfl

/-- Prefix-operator resolution recovers the operator from its token. -/
theorem prefixOperatorOf_tok (op : PrefixOperator) :
    prefixOperatorOf op.tok = some op := by
  cases op <;> rfl

/-- Every infix operator out-binds the lowest precedence. -/
theorem ltb_lowest_infix (op : InfixOperator) :
    Precedence.ltb Precedence.Lowest op.prec = true := by
  cases op <;> rfl

/-- No token out-binds the prefix precedence: a prefix operand parse never
extends past its operand. -/
theorem ltb_prefixP (t : Token) :
    Precedence.ltb Precedence.PrefixP (tokenPrecedence t) = false := by
  cases t <;> rfl

/-- The infix loop returns immediately when the peek token does not
out-bind the minimum precedence. -/
theorem infixLoop_stops (g : Nat) (precedence : Precedence)
    (left : Option Expression) (p : Parser) (hg : 1 ≤ g)
    (h : Precedence.ltb precedence p.peek_precedence = false) :
    infixLoop g precedence left p = Res.ok left p := by
  cases g with
  | zero => omega
  | succ g1 => simp [infixLoop, h]

/-- A shape without a bare infix root satisfies every entry condition. -/
theorem entryOk_noninf (precedence : Precedence) (x : SExp)
    (h : x.isInf = false) : entryOk precedence x = true := by
  cases x <;> simp [entryOk] <;> simp [SExp.isInf] at h

/-- A shape without a bare infix root needs no boundary condition. -/
theorem innerStop_noninf (x : SExp) (h : x.isInf = false) (t : Token) :
    innerStop x t = true := by
  cases x <;> simp [innerStop] <;> simp [SExp.isInf] at h

/-- Every shape may be parsed at the lowest precedence. -/
theorem entryOk_lowest (x : SExp) :
    entryOk Precedence.Lowest x = true := by
  cases x <;> first | rfl | exact ltb_lowest_infix _

/-- The table precedence of an operator token. -/
theorem tokPrec_tok (op : InfixOperator) :
    tokenPrecedence (InfixOperator.tok op) = op.prec := rfl

/-- An operator's right child may be parsed at the operator's own
precedence. -/
theorem entryOk_of_rightOk (op : InfixOperator) (r : SExp)
    (h : r.rightOkAt op = true) : entryOk op.prec r = true := by
  cases r <;> simp_all [SExp.rightOkAt, entryOk, Precedence.ltb]

/-- A boundary token that stops the operator also stops its right child. -/
theorem innerStop_of_rightOk (op : InfixOperator) (r : SExp) (t : Token)
    (h : r.rightOkAt op = true)
    (ht : (tokenPrecedence t).toNat ≤ op.prec.toNat) :
    innerStop r t = true := by
  cases r <;> simp_all [SExp.rightOkAt, innerStop] <;> omega

/-- A minimum precedence below the operator is also below its left
child's operator. -/
theorem entryOk_of_leftOk (precedence : Precedence) (op : InfixOperator)
    (l : SExp) (h : l.leftOkAt op = true)
    (hp : Precedence.ltb precedence op.prec = true) :
    entryOk precedence l = true := by
  cases l <;> simp_all [SExp.leftOkAt, entryOk, Precedence.ltb] <;> omega

/-- The operator's token stops every parse level inside its left child. -/
theorem innerStop_of_leftOk (op : InfixOperator) (l : SExp)
    (h : l.leftOkAt op = true) : innerStop l op.tok = true := by
  cases l <;> simp_all [SExp.leftOkAt, innerStop, tokPrec_tok]

/-- One iteration of the infix loop when peek is a non-semicolon operator
token that out-binds the minimum precedence and a left expression exists. -/
theorem infixLoop_step (fuel : Nat) (precedence : Precedence)
    (p : Parser) (l : Expression)
    (hsemi : p.peek_token_is Token.Semicolon = false)
    (hlt : Precedence.ltb precedence p.peek_precedence = true)
    (hop : p.peek.isOp = true) :
    infixLoop (fuel + 1) precedence (some l) p =
      match parse_infix_expression fuel l p.next_token with
      | Res.ok newLeft p' => infixLoop fuel precedence newLeft p'
      | Res.outOfFuel => Res.outOfFuel
      | Res.panicked => Res.panicked := by
  simp [infixLoop, hsemi, hlt, hop]

/-- Resumption law, by structural induction over shapes: on the tokens of a
well-formed shape followed by any remaining input, `parse_expression`
builds exactly the shape's denotation and then behaves as the enclosing
infix loop does on the remaining input. -/
theorem resume_lemma : ∀ e : SExp, ResumeP e := by
  intro e
  induction e with
  | ident s =>
    intro precedence rest errs res k hwf hentry hinner hk fuel hfuel
    cases fuel with
    | zero => omega
    | succ f =>
      simp only [SExp.tokens, List.cons_append, List.nil_append]
      simp only [parse_expression, mkP_cur, parse_identifier]
      have := hk f (by simp only [SExp.cost] at hfuel; omega)
      simpa [SExp.denote, SExp.lastTok] using this
  | intLit s =>
    intro precedence rest errs res k hwf hentry hinner hk fuel hfuel
    cases fuel with
    | zero => omega
    | succ f =>
      simp only [SExp.wf] at hwf
      obtain ⟨v, hv⟩ := Option.isSome_iff_exists.mp hwf
      simp only [SExp.tokens, List.cons_append, List.nil_append]
      simp only [parse_expression, mkP_cur, parse_integer_literal, hv]
      have := hk f (by simp only [SExp.cost] at hfuel; omega)
      simpa [SExp.denote, SExp.lastTok, hv] using this
  | boolLit b =>
    intro precedence rest errs res k hwf hentry hinner hk fuel hfuel
    cases fuel with
    | zero => omega
    | succ f =>
      cases b <;>
        simp only [SExp.tokens, List.cons_append, List.nil_append] <;>
        simp only [parse_expression, mkP_cur, parse_boolean_literal] <;>
        · have := hk f (by simp only [SExp.cost] at hfuel; omega)
          simpa [SExp.denote, SExp.lastTok] using this
  | pre op x ihx =>
    intro precedence rest errs res k hwf hentry hinner hk fuel hfuel
    simp only [SExp.wf, Bool.and_eq_true, Bool.not_eq_true'] at hwf
    obtain ⟨hwx, hni⟩ := hwf
    cases fuel with
    | zero => simp only [SExp.cost] at hfuel; omega
    | succ f =>
      cases f with
      | zero => simp only [SExp.cost] at hfuel; omega
      | succ f1 =>
        have hstops : ∀ g, 1 ≤ g →
            infixLoop g Precedence.PrefixP (some x.denote)
              (mkP (x.lastTok :: rest) errs) =
            Res.ok (some x.denote) (mkP (x.lastTok :: rest) errs) := by
          intro g hg
          apply infixLoop_stops g _ _ _ hg
          rw [peek_precedence_eq, mkP_peek]
          exact ltb_prefixP _
        have hx := ihx Precedence.PrefixP rest errs
          (Res.ok (some x.denote) (mkP (x.lastTok :: rest) errs)) 1
          hwx (entryOk_noninf _ _ hni) (innerStop_noninf _ hni _) hstops
          f1 (by simp only [SExp.cost] at hfuel; omega)
        simp only [SExp.tokens, List.cons_append]
        cases op <;>
          simp only [parse_expression, mkP_cur, parse_prefix_expression,
            PrefixOperator.tok, prefixOperatorOf, mkP_next, hx] <;>
          · have := hk (f1 + 1) (by simp only [SExp.cost] at hfuel; omega)
            simpa [SExp.denote, SExp.lastTok, PrefixOperator.tok] using this
  | paren x ihx =>
    intro precedence rest errs res k hwf hentry hinner hk fuel hfuel
    simp only [SExp.wf] at hwf
    cases fuel with
    | zero => simp only [SExp.cost] at hfuel; omega
    | succ f =>
      cases f with
      | zero => simp only [SExp.cost] at hfuel; omega
      | succ f1 =>
        have hstops : ∀ g, 1 ≤ g →
            infixLoop g Precedence.Lowest (some x.denote)
              (mkP (x.lastTok :: Token.RParen :: rest) errs) =
            Res.ok (some x.denote) (mkP (x.lastTok :: Token.RParen :: rest) errs) := by
          intro g hg
          apply infixLoop_stops g _ _ _ hg
          rw [peek_precedence_eq, mkP_peek]
          rfl
        have hinner_x : innerStop x Token.RParen = true := by
          cases x <;> simp [innerStop, tokenPrecedence, Precedence.toNat]
        have hx := ihx Precedence.Lowest (Token.RParen :: rest) errs
          (Res.ok (some x.denote) (mkP (x.lastTok :: Token.RParen :: rest) errs)) 1
          hwf (entryOk_lowest x) hinner_x hstops f1
          (by simp only [SExp.cost] at hfuel; omega)
        simp only [SExp.tokens, List.cons_append, List.append_assoc,
          List.nil_append]
        simp only [parse_expression, mkP_cur, parse_grouped_expression,
          mkP_next, hx]
        simp [Parser.expect_peek, Parser.peek_token_is, mkP_peek, mkP_next]
        have := hk (f1 + 1) (by simp only [SExp.cost] at hfuel; omega)
        simpa [SExp.denote, SExp.lastTok] using this
  | inf l op r ihl ihr =>
    intro precedence rest errs res k hwf hentry hinner hk fuel hfuel
    simp only [SExp.wf, Bool.and_eq_true] at hwf
    obtain ⟨⟨⟨hwl, hwr⟩, hc1⟩, hc2⟩ := hwf
    simp only [entryOk] at hentry
    simp only [innerStop] at hinner
    rw [decide_eq_true_eq] at hinner
    have hrr : ∀ f2, r.cost + 2 ≤ f2 →
        parse_expression f2 op.prec (mkP (r.tokens ++ rest) errs) =
          Res.ok (some r.denote) (mkP (r.lastTok :: rest) errs) := by
      intro f2 hf2
      have hstops : ∀ g, 1 ≤ g →
          infixLoop g op.prec (some r.denote) (mkP (r.lastTok :: rest) errs) =
            Res.ok (some r.denote) (mkP (r.lastTok :: rest) errs) := by
        intro g hg
        apply infixLoop_stops g _ _ _ hg
        rw [peek_precedence_eq, mkP_peek]
        simp only [Precedence.ltb]
        rw [decide_eq_false_iff_not]
        omega
      exact ihr op.prec rest errs _ 1 hwr (entryOk_of_rightOk op r hc2)
        (innerStop_of_rightOk op r _ hc2 hinner) hstops f2 (by omega)
    have hkl : ∀ g, k + r.cost + 4 ≤ g →
        infixLoop g precedence (some l.denote)
          (mkP (l.lastTok :: InfixOperator.tok op :: (r.tokens ++ rest)) errs) =
          res := by
      intro g hg
      match g, hg with
      | g2 + 2, hg =>
        rw [infixLoop_step (g2 + 1) precedence
          (mkP (l.lastTok :: InfixOperator.tok op :: (r.tokens ++ rest)) errs)
          l.denote
          (by simp [Parser.peek_token_is, mkP_peek, opTok_ne_semicolon])
          (by rw [peek_precedence_eq, mkP_peek]; simp [tokPrec_tok, hentry])
          (by rw [mkP_peek]; simp [isOp_tok])]
        rw [mkP_next]
        simp only [parse_infix_expression, mkP_cur, infixOperatorOf_tok,
          cur_precedence_eq, tokPrec_tok, mkP_next]
        have hrr2 := hrr g2 (by omega)
        simp only [hrr2]
        have := hk (g2 + 1) (by omega)
        simpa [SExp.denote, SExp.lastTok] using this
    have hfin := ihl precedence (InfixOperator.tok op :: (r.tokens ++ rest))
      errs res (k + r.cost + 4) hwl
      (entryOk_of_leftOk precedence op l hc1 hentry)
      (by simpa using innerStop_of_leftOk op l hc1)
      hkl fuel (by simp only [SExp.cost] at hfuel; omega)
    simpa [SExp.tokens, List.append_assoc, List.cons_append] using hfin

/-- C2: the universal precedence/associativity law. For every expression
shape over the eight binary operators, the two prefix operators,
parentheses and atoms that is well formed for the precedence table with
left-to-right association (`SExp.wf`: an infix left child binds at least as
tightly as its parent, an infix right child strictly more tightly, prefix
operands out-bind every infix operator, and a parenthesized subtree is
unconstrained because parentheses reset the minimum precedence to lowest),
`parse_expression` at the lowest precedence maps the shape's token stream
to exactly the shape's tree. In particular the claim's example streams
`"a + b * c"`, `"a + b - c"`, `"-a * b"` parse to `"(a + (b * c))"`,
`"((a + b) - c)"`, `"((-a) * b)"`, and grouping overrides precedence in
`"1 + (2 + 3) + 4"`, `"(5 + 5) * 2"`, `"2 / (5 + 5)"`. -/
theorem precedence_climbing_universal :
    (∀ e : SExp, e.wf = true → ∀ fuel, e.cost + 2 ≤ fuel →
      parse_expression fuel Precedence.Lowest
          (mkP (e.tokens ++ [Token.Eof, Token.Eof]) []) =
        Res.ok (some e.denote) (mkP [e.lastTok, Token.Eof, Token.Eof] []))
    ∧ programStringOf [Token.Ident "a", Token.Plus, Token.Ident "b", Token.Asterisk,
        Token.Ident "c"] = some "(a + (b * c))"
    ∧ programStringOf [Token.Ident "a", Token.Plus, Token.Ident "b", Token.Minus,
        Token.Ident "c"] = some "((a + b) - c)"
    ∧ programStringOf [Token.Minus, Token.Ident "a", Token.Asterisk,
        Token.Ident "b"] = some "((-a) * b)"
    ∧ programStringOf [Token.Int "1", Token.Plus, Token.LParen, Token.Int "2",
        Token.Plus, Token.Int "3", Token.RParen, Token.Plus, Token.Int "4"] =
        some "((1 + (2 + 3)) + 4)"
    ∧ programStringOf [Token.LParen, Token.Int "5", Token.Plus, Token.Int "5",
        Token.RParen, Token.Asterisk, Token.Int "2"] = some "((5 + 5) * 2)"
    ∧ programStringOf [Token.Int "2", Token.Slash, Token.LParen, Token.Int "5",
        Token.Plus, Token.Int "5", Token.RParen] = some "(2 / (5 + 5))" := by
  refine ⟨?_, rfl, rfl, rfl, rfl, rfl, rfl⟩
  intro e hwf fuel hfuel
  exact resume_lemma e Precedence.Lowest [Token.Eof, Token.Eof] []
    (Res.ok (some e.denote) (mkP [e.lastTok, Token.Eof, Token.Eof] [])) 1 hwf
    (entryOk_lowest e)
    (by cases e <;> simp [innerStop, tokenPrecedence, Precedence.toNat])
    (fun g hg => by
      apply infixLoop_stops g _ _ _ hg
      rw [peek_precedence_eq, mkP_peek]
      rfl)
    fuel (by omega)

/-- C2 witness: the universal law applied to the shape of `"a + b * c"` —
well-formedness holds and the parse returns exactly its tree. -/
theorem precedence_climbing_universal_witness :
    (SExp.inf (SExp.ident "a") InfixOperator.Plus
        (SExp.inf (SExp.ident "b") InfixOperator.Asterisk (SExp.ident "c"))).wf = true
    ∧ parse_expression 20 Precedence.Lowest
        (mkP ((SExp.inf (SExp.ident "a") InfixOperator.Plus
            (SExp.inf (SExp.ident "b") InfixOperator.Asterisk
              (SExp.ident "c"))).tokens ++ [Token.Eof, Token.Eof]) []) =
      Res.ok
        (some (SExp.inf (SExp.ident "a") InfixOperator.Plus
            (SExp.inf (SExp.ident "b") InfixOperator.Asterisk
              (SExp.ident "c"))).denote)
        (mkP [(SExp.inf (SExp.ident "a") InfixOperator.Plus
            (SExp.inf (SExp.ident "b") InfixOperator.Asterisk
              (SExp.ident "c"))).lastTok, Token.Eof, Token.Eof] []) :=
  ⟨rfl,
   precedence_climbing_universal.1
     (SExp.inf (SExp.ident "a") InfixOperator.Plus
       (SExp.inf (SExp.ident "b") InfixOperator.Asterisk (SExp.ident "c")))
     rfl 20 (by decide)⟩
